import Mathlib

/-!
Shallow embedding of the go-git object-store core (yosisa/go-git) in Lean 4.

Bytes are modelled as `Nat` values (each `< 256` where it matters), byte
strings as `List Nat`, Go's `int64`/`uint32` arithmetic as `Nat`/`Int` with
explicit wrap-around where overflow is possible.  Fallible Go functions
returning `(T, error)` become `Option`/`Except`; a Go runtime panic (slice
index out of range) is modelled by an explicit `.panic` outcome.

External collaborators that are not part of this repository (Go's `sha1`,
`zlib`, the filesystem) are abstracted as function parameters.
-/

namespace GoGit

/-! ### bytes.Compare (Go standard library, used by SHA1.Compare) -/

/-- Go `bytes.Compare`: lexicographic, -1 / 0 / +1. -/
def bytesCompare : List Nat → List Nat → Int
  | [], [] => 0
  | [], _ :: _ => -1
  | _ :: _, [] => 1
  | a :: as, b :: bs => if a < b then -1 else if b < a then 1 else bytesCompare as bs

theorem bytesCompare_self (a : List Nat) : bytesCompare a a = 0 := by
  induction a with
  | nil => rfl
  | cons x xs ih => simp [bytesCompare, ih]

theorem bytesCompare_eq_zero {a b : List Nat} (h : bytesCompare a b = 0) : a = b := by
  induction a generalizing b with
  | nil => cases b with
    | nil => rfl
    | cons y ys => simp [bytesCompare] at h
  | cons x xs ih =>
    cases b with
    | nil => simp [bytesCompare] at h
    | cons y ys =>
      by_cases hxy : x < y
      · simp [bytesCompare, hxy] at h
      · by_cases hyx : y < x
        · simp [bytesCompare, hxy, hyx] at h
        · have hx : x = y := Nat.le_antisymm (Nat.le_of_not_lt hyx) (Nat.le_of_not_lt hxy)
          simp only [bytesCompare, if_neg hxy, if_neg hyx] at h
          rw [hx, ih h]

/-- First-byte monotonicity of the lexicographic order. -/
theorem headD_le_of_bytesCompare_le {a b : List Nat} (h : bytesCompare a b ≤ 0) :
    a.headD 0 ≤ b.headD 0 := by
  cases a with
  | nil => cases b <;> simp
  | cons x xs =>
    cases b with
    | nil => simp [bytesCompare] at h
    | cons y ys =>
      by_cases hxy : x < y
      · simpa using Nat.le_of_lt hxy
      · by_cases hyx : y < x
        · simp [bytesCompare, hxy, hyx] at h
        · have hx : x = y := Nat.le_antisymm (Nat.le_of_not_lt hyx) (Nat.le_of_not_lt hxy)
          simp [hx]

/-! ### SHA1 construction from hex (`NewSHA1`, claim C9)

Go's `hex.DecodeString` decodes hex pairs; it fails on any non-hex character
and on odd length, and succeeds on any even-length hex string.  `NewSHA1`
then `copy`s the decoded bytes into a zeroed 20-byte array: extra bytes are
dropped, missing bytes stay zero. -/

/-- Value of one ASCII hex digit, `none` when the character is not hex. -/
def hexDigitVal (c : Nat) : Option Nat :=
  if 48 ≤ c ∧ c ≤ 57 then some (c - 48)
  else if 97 ≤ c ∧ c ≤ 102 then some (c - 87)
  else if 65 ≤ c ∧ c ≤ 70 then some (c - 55)
  else none

/-- Go `hex.DecodeString` on the bytes of the string: decodes pairs of hex
digits; `none` on odd length or any non-hex character. -/
def hexDecode : List Nat → Option (List Nat)
  | [] => some []
  | [_] => none
  | a :: b :: rest =>
    match hexDigitVal a, hexDigitVal b, hexDecode rest with
    | some hi, some lo, some tl => some ((hi * 16 + lo) :: tl)
    | _, _, _ => none

/-- Go `NewSHA1`: `hex.DecodeString` then `copy(sha[:], b)` into a zeroed
20-byte array (so the result is the decoded bytes truncated to, or
zero-padded up to, 20 bytes). -/
def NewSHA1 (s : List Nat) : Option (List Nat) :=
  (hexDecode s).map fun b => (b ++ List.replicate 20 0).take 20

/-- Character is an ASCII hex digit. -/
def isHexChar (c : Nat) : Bool :=
  (hexDigitVal c).isSome

theorem hexDecode_isSome_iff :
    ∀ s : List Nat,
      (hexDecode s).isSome ↔ s.length % 2 = 0 ∧ ∀ c ∈ s, isHexChar c = true
  | [] => by simp [hexDecode]
  | [a] => by simp [hexDecode]
  | a :: b :: rest => by
    have ih := hexDecode_isSome_iff rest
    constructor
    · intro h
      simp only [hexDecode] at h
      cases ha : hexDigitVal a with
      | none => rw [ha] at h; simp at h
      | some hi =>
        cases hb : hexDigitVal b with
        | none => rw [ha, hb] at h; simp at h
        | some lo =>
          cases hr : hexDecode rest with
          | none => rw [ha, hb, hr] at h; simp at h
          | some tl =>
            have hprev := ih.mp (by rw [hr]; rfl)
            refine ⟨by simp only [List.length_cons]; have := hprev.1; omega, ?_⟩
            intro c hc
            rcases List.mem_cons.mp hc with rfl | hc2
            · simp [isHexChar, ha]
            · rcases List.mem_cons.mp hc2 with rfl | hc3
              · simp [isHexChar, hb]
              · exact hprev.2 c hc3
    · rintro ⟨hlen, hall⟩
      have ha : isHexChar a := hall a (by simp)
      have hb : isHexChar b := hall b (by simp)
      have hrest : (hexDecode rest).isSome := by
        refine ih.mpr ⟨by simp only [List.length_cons] at hlen; omega, ?_⟩
        intro c hc; exact hall c (by simp [hc])
      simp only [isHexChar, Option.isSome_iff_exists] at ha hb
      obtain ⟨hi, hhi⟩ := ha
      obtain ⟨lo, hlo⟩ := hb
      obtain ⟨tl, htl⟩ := Option.isSome_iff_exists.mp hrest
      simp [hexDecode, hhi, hlo, htl]

/-! ### SparseObject (claim C8)

`SparseObject.Resolve` consults the repository only when both the cached
object and the cached error are absent.  The store (`Repository.Object`) is
abstracted as a function from hash to a Go `(Object, error)` pair; `Obj` is
an abstract type of materialized object instances. -/

structure SparseObj (Obj Err : Type) where
  id : List Nat
  obj : Option Obj
  err : Option Err

/-- Go `SparseObject.Resolve`: returns the updated state together with the
returned `(Object, error)` pair. -/
def SparseObj.Resolve {Obj Err : Type} (store : List Nat → Option Obj × Option Err)
    (s : SparseObj Obj Err) : SparseObj Obj Err × (Option Obj × Option Err) :=
  if s.obj.isNone && s.err.isNone then
    let r := store s.id
    ({ s with obj := r.1, err := r.2 }, r)
  else
    (s, (s.obj, s.err))

/-! ### Repository.entry dispatch (claim C2)

The two stores are abstracted as functions from hash to `Except`; the code
under test is the dispatch in `Repository.entry` (repository.go:101-104):

    if entry, err := r.pack.entry(id); err == nil {
        return entry, err
    }
    return newLooseObjectEntry(r.root, id)
-/

inductive GitErr : Type
  | notFound
  | checksum
  | unknownFormat
  | ioError
  deriving DecidableEq, Repr

/-- Go `Repository.entry` (the pack already opened): pack first, loose on
failure. -/
def repositoryEntry {E : Type} (pack loose : List Nat → Except GitErr E)
    (id : List Nat) : Except GitErr E :=
  match pack id with
  | .ok e => .ok e
  | .error _ => loose id

/-! ### Pack.Object vs Repository.readObject (claim C10)

An object entry provides a type name and a payload (`ReadAll`); parsing the
payload may fail.  `parse` returns the (possibly partially-initialized)
object together with the parse error, mirroring that Go's `obj.Parse(b)`
mutates `obj` and returns an error.  The Go `(Object, error)` return value
is modelled as `Option Obj × Option GitErr`. -/

structure ObjEntry : Type where
  typ : String
  readAll : Except GitErr (List Nat)

/-- Go `Pack.Object` (pack.go:81-93): the result of `obj.Parse(b)` is
discarded and `nil` is returned as the error. -/
def packObject {Obj : Type} (entry : Except GitErr ObjEntry)
    (parse : String → List Nat → Obj × Option GitErr) :
    Option Obj × Option GitErr :=
  match entry with
  | .error e => (none, some e)
  | .ok en =>
    match en.readAll with
    | .error e => (none, some e)
    | .ok b =>
      let r := parse en.typ b
      (some r.1, none)

/-- Go `Repository.readObject` (repository.go:72-92, with `obj == nil` and
`headerOnly == false`): the parse error is returned to the caller. -/
def repositoryReadObject {Obj : Type} (entry : Except GitErr ObjEntry)
    (parse : String → List Nat → Obj × Option GitErr) :
    Option Obj × Option GitErr :=
  match entry with
  | .error e => (none, some e)
  | .ok en =>
    match en.readAll with
    | .error e => (none, some e)
    | .ok b =>
      let r := parse en.typ b
      (some r.1, r.2)

/-! ### Pack entry reading (claim C3)

`Pack.entryAt` (pack.go:103-191) over an abstract byte source.  The pack
file's bytes are a `List Nat`; offsets are `Int` (Go `int64`, so a bogus
negative base offset fails at the seek rather than wrapping).  The zlib
decompressor (`Pack.readDelta` / `packEntry.ReadAll`) and `applyDelta`
are external to the reading logic modelled here and are abstracted as
functions; the `packEntryCache` layer is omitted (claim C3 concerns the
decode path on a cache miss). -/

/-- Go `readPackEntryHeader` body: read bytes while the MSB continuation
bit is set; `none` models the `ReadByte` error at end of input. -/
def readHeaderAux (data : List Nat) (pos : Nat) : Option (List Nat × Nat) :=
  match h : data[pos]? with
  | none => none
  | some b =>
    if (b >>> 7) = 1 then
      match readHeaderAux data (pos + 1) with
      | none => none
      | some (hdr, p2) => some (b :: hdr, p2)
    else some ([b], pos + 1)
termination_by data.length - pos
decreasing_by
  have : pos < data.length := by
    by_contra hge
    rw [List.getElem?_eq_none (by omega)] at h
    exact absurd h (by simp)
  omega

/-- `readPackEntryHeader` from an absolute (possibly negative) offset. -/
def readPackEntryHeader (data : List Nat) (pos : Int) : Option (List Nat × Int) :=
  if 0 ≤ pos then
    (readHeaderAux data pos.toNat).map fun r => (r.1, (r.2 : Int))
  else none

/-- Go `packEntryHeader.Type`: bits 4-6 of the first byte. -/
def peType (b : Nat) : Nat := (b >>> 4) &&& 7

/-- Go `packEntryHeader.Size0`: low 4 bits. -/
def peSize0 (b : Nat) : Nat := b &&& 15

/-- Go `packEntryHeader.Size`: low 7 bits. -/
def peSize (b : Nat) : Nat := b &&& 127

/-- The size loop of `Pack.entryAt` (pack.go:118-122):
`size = (header[i+1].Size() << (4+7*i)) | size`. -/
def sizeLoop (size i : Nat) : List Nat → Nat
  | [] => size
  | b :: rest => sizeLoop ((peSize b <<< (4 + 7 * i)) ||| size) (i + 1) rest

def packEntrySize (hdr : List Nat) : Nat :=
  match hdr with
  | [] => 0
  | h0 :: rest => sizeLoop (peSize0 h0) 0 rest

/-- The ofs-delta negative-offset loop of `Pack.entryAt` (pack.go:144-148):
`ofs += 1; ofs = (ofs << 7) + h.Size()`. -/
def ofsLoop (ofs : Nat) : List Nat → Nat
  | [] => ofs
  | b :: rest => ofsLoop (((ofs + 1) <<< 7) + peSize b) rest

def goOfsValue (hdr : List Nat) : Nat :=
  match hdr with
  | [] => 0
  | h0 :: rest => ofsLoop (peSize h0) rest

/-- The claim's decode formula: low 7 bits of the first byte, then
`value = ((value + 1) << 7) | (byte & 0x7F)` for each continuation byte. -/
def specOfsValue (hdr : List Nat) : Nat :=
  match hdr with
  | [] => 0
  | h0 :: rest => rest.foldl (fun v b => ((v + 1) <<< 7) ||| (b &&& 127)) (h0 &&& 127)

theorem shiftLeft_lor_eq_add : ∀ k x c : Nat, c < 2 ^ k → (x <<< k) ||| c = (x <<< k) + c := by
  intro k
  induction k with
  | zero =>
    intro x c hc
    interval_cases c
    simp
  | succ k ih =>
    intro x c hc
    have hdecomp : Nat.bit c.bodd c.div2 = c := Nat.bit_decomp c
    have hx : x <<< (k + 1) = Nat.bit false (x <<< k) := by
      rw [Nat.shiftLeft_succ]
      simp [Nat.bit]
    rw [hx, ← hdecomp, Nat.lor_bit]
    have hdiv : c.div2 < 2 ^ k := by
      have h2 : c.div2 = c / 2 := Nat.div2_val c
      have := Nat.pow_succ 2 k
      omega
    rw [ih x c.div2 hdiv]
    cases hb : c.bodd <;> simp [Nat.bit] <;> ring

theorem ofsLoop_eq_foldl :
    ∀ (rest : List Nat) (v : Nat),
      ofsLoop v rest = rest.foldl (fun a b => ((a + 1) <<< 7) ||| (b &&& 127)) v := by
  intro rest
  induction rest with
  | nil => intro v; rfl
  | cons b bs ih =>
    intro v
    have hand : b &&& 127 < 2 ^ 7 := by
      have hle : b &&& 127 ≤ 127 := Nat.and_le_right
      omega
    rw [ofsLoop, List.foldl_cons, ← ih, peSize, shiftLeft_lor_eq_add 7 (v + 1) (b &&& 127) hand]

/-- The code's ofs-delta decode agrees with the claim's formula. -/
theorem goOfsValue_eq_specOfsValue (hdr : List Nat) : goOfsValue hdr = specOfsValue hdr := by
  cases hdr with
  | nil => rfl
  | cons h0 rest => rw [goOfsValue, specOfsValue, peSize, ofsLoop_eq_foldl]

/-- A materialized pack entry handle: type name, optional decompressed
payload (`none` = lazily read later), entry offset, header length, size. -/
structure PackEntryM : Type where
  typ : String
  buf : Option (List Nat)
  offset : Int
  headerLen : Nat
  size : Nat
  deriving DecidableEq, Repr

/-- The pack byte source with its external collaborators: `inflateAt pos`
is the zlib decompression of the stream starting at absolute position
`pos`; `idxEntry` is the index lookup used by ref-delta entries. -/
structure PackSrc : Type where
  data : List Nat
  inflateAt : Int → Option (List Nat)
  idxEntry : List Nat → Option Int

/-- Go `packEntry.ReadAll`: a delta entry already holds its buffer; a base
entry decompresses from just after its header. -/
def readAllM (pm : PackSrc) (pe : PackEntryM) : Option (List Nat) :=
  match pe.buf with
  | some b => some b
  | none => pm.inflateAt (pe.offset + pe.headerLen)

/-- Go `readSHA1` inside the ref-delta branch: 20 bytes at `pos`. -/
def readBytesAt (data : List Nat) (pos : Int) (n : Nat) : Option (List Nat × Int) :=
  if 0 ≤ pos ∧ pos.toNat + n ≤ data.length then
    some ((data.drop pos.toNat).take n, pos + n)
  else none

/-- Go `Pack.entryAt` (pack.go:103-191), fuelled (the Go original can
recurse forever on a self-referencing ofs-delta).  `ad` abstracts
`applyDelta` applied to the base payload and the delta buffer. -/
def entryAt (pm : PackSrc) (ad : List Nat → List Nat → Option (List Nat)) :
    Nat → Int → Option PackEntryM
  | 0, _ => none
  | fuel + 1, offset =>
    match readPackEntryHeader pm.data offset with
    | none => none
    | some (hdr, pos1) =>
      let size := packEntrySize hdr
      let typ := peType (hdr.headD 0)
      if typ = 1 then some ⟨"commit", none, offset, hdr.length, size⟩
      else if typ = 2 then some ⟨"tree", none, offset, hdr.length, size⟩
      else if typ = 3 then some ⟨"blob", none, offset, hdr.length, size⟩
      else if typ = 4 then some ⟨"tag", none, offset, hdr.length, size⟩
      else if typ = 6 then
        match readPackEntryHeader pm.data pos1 with
        | none => none
        | some (hdr2, pos2) =>
          match pm.inflateAt pos2 with
          | none => none
          | some delta =>
            match entryAt pm ad fuel (offset - goOfsValue hdr2) with
            | none => none
            | some base =>
              match readAllM pm base with
              | none => none
              | some basePayload =>
                match ad basePayload delta with
                | none => none
                | some buf => some ⟨base.typ, some buf, offset, hdr.length, size⟩
      else if typ = 7 then
        match readBytesAt pm.data pos1 20 with
        | none => none
        | some (idBytes, pos2) =>
          match pm.inflateAt pos2 with
          | none => none
          | some delta =>
            match pm.idxEntry idBytes with
            | none => none
            | some boff =>
              match entryAt pm ad fuel boff with
              | none => none
              | some base =>
                match readAllM pm base with
                | none => none
                | some basePayload =>
                  match ad basePayload delta with
                  | none => none
                  | some buf => some ⟨base.typ, some buf, offset, hdr.length, size⟩
      else none

/-- C3: at an ofs-delta entry the base-offset varint following the size
header is decoded by the claim's formula (low 7 bits of the first byte,
then `value = ((value + 1) << 7) | (byte & 0x7F)` per continuation byte),
the base is obtained by recursively reading the entry at
`offset - value` (itself possibly a delta), and the resulting entry's type
name is inherited from that base. -/
theorem entryAt_ofs_delta (pm : PackSrc) (ad : List Nat → List Nat → Option (List Nat))
    (fuel : Nat) (offset : Int) (hdr1 : List Nat) (pos1 : Int) (hdr2 : List Nat)
    (pos2 : Int) (delta : List Nat)
    (h1 : readPackEntryHeader pm.data offset = some (hdr1, pos1))
    (htyp : peType (hdr1.headD 0) = 6)
    (h2 : readPackEntryHeader pm.data pos1 = some (hdr2, pos2))
    (hd : pm.inflateAt pos2 = some delta) :
    entryAt pm ad (fuel + 1) offset =
      (entryAt pm ad fuel (offset - specOfsValue hdr2)).bind fun base =>
        (readAllM pm base).bind fun basePayload =>
          (ad basePayload delta).map fun buf =>
            ⟨base.typ, some buf, offset, hdr1.length, packEntrySize hdr1⟩ := by
  rw [show entryAt pm ad (fuel + 1) offset =
      (match readPackEntryHeader pm.data offset with
       | none => none
       | some (hdr, pos1) =>
         let size := packEntrySize hdr
         let typ := peType (hdr.headD 0)
         if typ = 1 then some ⟨"commit", none, offset, hdr.length, size⟩
         else if typ = 2 then some ⟨"tree", none, offset, hdr.length, size⟩
         else if typ = 3 then some ⟨"blob", none, offset, hdr.length, size⟩
         else if typ = 4 then some ⟨"tag", none, offset, hdr.length, size⟩
         else if typ = 6 then
           match readPackEntryHeader pm.data pos1 with
           | none => none
           | some (hdr2, pos2) =>
             match pm.inflateAt pos2 with
             | none => none
             | some delta =>
               match entryAt pm ad fuel (offset - goOfsValue hdr2) with
               | none => none
               | some base =>
                 match readAllM pm base with
                 | none => none
                 | some basePayload =>
                   match ad basePayload delta with
                   | none => none
                   | some buf => some ⟨base.typ, some buf, offset, hdr.length, size⟩
         else if typ = 7 then
           match readBytesAt pm.data pos1 20 with
           | none => none
           | some (idBytes, pos2) =>
             match pm.inflateAt pos2 with
             | none => none
             | some delta =>
               match pm.idxEntry idBytes with
               | none => none
               | some boff =>
                 match entryAt pm ad fuel boff with
                 | none => none
                 | some base =>
                   match readAllM pm base with
                   | none => none
                   | some basePayload =>
                     match ad basePayload delta with
                     | none => none
                     | some buf => some ⟨base.typ, some buf, offset, hdr.length, size⟩
         else none) from rfl]
  rw [h1]
  simp only [htyp]
  norm_num
  rw [h2]
  dsimp only
  rw [hd]
  dsimp only
  rw [goOfsValue_eq_specOfsValue]
  cases hbase : entryAt pm ad fuel (offset - specOfsValue hdr2) with
  | none => rfl
  | some base =>
    show (match readAllM pm base with
          | none => none
          | some basePayload =>
            match ad basePayload delta with
            | none => none
            | some buf =>
              some ⟨base.typ, some buf, offset, hdr1.length, packEntrySize hdr1⟩) =
        (readAllM pm base).bind fun basePayload =>
          (ad basePayload delta).map fun buf =>
            (⟨base.typ, some buf, offset, hdr1.length, packEntrySize hdr1⟩ : PackEntryM)
    cases hra : readAllM pm base with
    | none => rfl
    | some basePayload =>
      show (match ad basePayload delta with
            | none => none
            | some buf =>
              some ⟨base.typ, some buf, offset, hdr1.length, packEntrySize hdr1⟩) =
          (ad basePayload delta).map fun buf =>
            (⟨base.typ, some buf, offset, hdr1.length, packEntrySize hdr1⟩ : PackEntryM)
      cases had : ad basePayload delta with
      | none => rfl
      | some buf => rfl

unseal readHeaderAux in
/-- C3 witness: a concrete two-entry pack — a blob at offset 0, an
ofs-delta at offset 2 whose varint decodes to 2. -/
theorem entryAt_ofs_delta_witness :
    entryAt
        ⟨[52, 170, 98, 2, 153],
          (fun p => if p = 4 then some [7, 7] else if p = 1 then some [1, 2, 3] else none),
          fun _ => none⟩
        (fun b d => some (b ++ d)) 2 2 =
      (entryAt
          ⟨[52, 170, 98, 2, 153],
            (fun p => if p = 4 then some [7, 7] else if p = 1 then some [1, 2, 3] else none),
            fun _ => none⟩
          (fun b d => some (b ++ d)) 1 (2 - specOfsValue [2])).bind fun base =>
        (readAllM
            ⟨[52, 170, 98, 2, 153],
              (fun p => if p = 4 then some [7, 7] else if p = 1 then some [1, 2, 3] else none),
              fun _ => none⟩
            base).bind fun basePayload =>
          ((fun b d => some (b ++ d) : List Nat → List Nat → Option (List Nat)) basePayload
              [7, 7]).map fun buf =>
            ⟨base.typ, some buf, 2, [98].length, packEntrySize [98]⟩ :=
  entryAt_ofs_delta
    ⟨[52, 170, 98, 2, 153],
      (fun p => if p = 4 then some [7, 7] else if p = 1 then some [1, 2, 3] else none),
      fun _ => none⟩
    (fun b d => some (b ++ d)) 1 2 [98] 3 [2] 4 [7, 7] (by decide) (by decide) (by decide)
    (by decide)

/-! ### Object payload parsing (claim C4)

`Tree.Parse` (tree.go:31-53), `newUser` (user.go:19-49) and `Commit.Parse`
(commit.go:30-74), with Go's runtime slice-bounds panics modelled by an
explicit `.panic` outcome (a Go slice `s[a:b]` panics when `b > len(s)`;
`s[a:]` panics when `a > len(s)`; the payload slices here have capacity
equal to their length). -/

/-- Outcome of a Go function that may return an error or panic at runtime. -/
inductive POut (α : Type) : Type
  | ok (a : α)
  | err
  | panic
  deriving DecidableEq, Repr

/-- Go `bytes.IndexByte`: first index of `b`, or `none`. -/
def indexByte (data : List Nat) (b : Nat) : Option Nat :=
  match data with
  | [] => none
  | x :: rest => if x = b then some 0 else (indexByte rest b).map (· + 1)

/-- Go `parseMode` (tree.go:341-351): per-byte octal accumulation into a
`uint32`; `n := b - 0x30` is byte arithmetic and wraps modulo 256 (the
`n < 0` test is vacuous on an unsigned byte). -/
def parseModeAux (m : Nat) : List Nat → Option Nat
  | [] => some m
  | b :: rest =>
    let n := (b + 256 - 48) % 256
    if n > 7 then none else parseModeAux (((m <<< 3) ||| n) % 4294967296) rest

def parseMode (bs : List Nat) : Option Nat :=
  parseModeAux 0 bs

/-- Go `Tree.Parse` loop: each iteration reads `<mode> <name>\0<20-byte id>`.
`rest[pos+1:pos+21]` / `rest[pos+21:]` panic when fewer than 21 bytes follow
the NUL. -/
def treeParseAux (acc : List (Nat × List Nat × List Nat)) (data : List Nat) :
    POut (List (Nat × List Nat × List Nat)) :=
  if hne : data = [] then .ok acc
  else
    match indexByte data 32 with
    | none => .err
    | some p =>
      let mode := data.take p
      let rest := data.drop (p + 1)
      match indexByte rest 0 with
      | none => .err
      | some q =>
        if q + 21 > rest.length then .panic
        else
          let name := rest.take q
          let id := (rest.drop (q + 1)).take 20
          match parseMode mode with
          | none => .err
          | some m => treeParseAux (acc ++ [(m, name, id)]) (rest.drop (q + 21))
termination_by data.length
decreasing_by
  simp only [List.length_drop]
  have : data.length ≠ 0 := fun h => hne (List.length_eq_zero.mp h)
  omega

def treeParse (data : List Nat) : POut (List (Nat × List Nat × List Nat)) :=
  treeParseAux [] data

/-- Go `strconv.ParseInt(s, 10, 64)`: optional sign, at least one digit, all
digits, 64-bit signed range. -/
def parseInt64 (s : List Nat) : Option Int :=
  match s with
  | [] => none
  | c :: rest =>
    let signDigits : Bool × List Nat :=
      if c = 43 then (false, rest) else if c = 45 then (true, rest) else (false, s)
    let neg := signDigits.1
    let digits := signDigits.2
    if digits = [] then none
    else if digits.all (fun d => 48 ≤ d && d ≤ 57) then
      let v : Nat := digits.foldl (fun a d => a * 10 + (d - 48)) 0
      if neg then (if v ≤ 2 ^ 63 then some (-(v : Int)) else none)
      else (if v < 2 ^ 63 then some (v : Int) else none)
    else none

/-- Go `time.Parse("-0700", s)`, abstracted: a sign byte and four digits
give a fixed offset in seconds; anything else fails. -/
def tzParse (s : List Nat) : Option Int :=
  match s with
  | [sg, h1, h2, m1, m2] =>
    if (sg = 43 || sg = 45) && (48 ≤ h1 && h1 ≤ 57) && (48 ≤ h2 && h2 ≤ 57)
        && (48 ≤ m1 && m1 ≤ 57) && (48 ≤ m2 && m2 ≤ 57) then
      let secs : Int := (((h1 : Int) - 48) * 10 + ((h2 : Int) - 48)) * 3600 +
        (((m1 : Int) - 48) * 10 + ((m2 : Int) - 48)) * 60
      some (if sg = 45 then -secs else secs)
    else none
  | _ => none

/-- A parsed user line: name bytes, email bytes, unix seconds, tz offset. -/
structure UserP : Type where
  name : List Nat
  email : List Nat
  sec : Int
  tz : Int
  deriving DecidableEq, Repr

/-- Go `newUser` (user.go:19-49).  `data[:pos-1]` panics when `'<'` is the
first byte (`pos-1` is `-1`); `data[pos+2:]` panics when `'>'` is the last
byte (`pos+2 > len`). -/
def userParse (data : List Nat) : POut UserP :=
  match indexByte data 60 with
  | none => .err
  | some p =>
    if p = 0 then .panic
    else
      let name := data.take (p - 1)
      let d1 := data.drop (p + 1)
      match indexByte d1 62 with
      | none => .err
      | some q =>
        let email := d1.take q
        if q + 2 > d1.length then .panic
        else
          let d2 := d1.drop (q + 2)
          match indexByte d2 32 with
          | none => .err
          | some r =>
            match parseInt64 (d2.take r) with
            | none => .err
            | some sec =>
              match tzParse (d2.drop (r + 1)) with
              | none => .err
              | some tz => .ok ⟨name, email, sec, tz⟩

/-- Go `SHA1FromHex` (called with `hex.Decode` into a 20-byte array):
panics — modelled as `none` — on a non-hex character, odd length, or more
than 40 characters; shorter valid input decodes into a zero-padded array. -/
def sha1FromHex (v : List Nat) : Option (List Nat) :=
  if v.length ≤ 40 then (hexDecode v).map (fun b => (b ++ List.replicate 20 0).take 20)
  else none

/-- Result of Go `readKV` (commit.go:111-120). -/
inductive KVOut : Type
  | ok (v : List Nat) (rest : List Nat)
  | noPrefix
  | bad
  deriving DecidableEq, Repr

/-- Go `readKV`: require the key as a byte-prefix, take the value up to the
next LF, return the bytes after the LF. -/
def readKV (data pfx : List Nat) : KVOut :=
  if pfx.isPrefixOf data then
    match indexByte data 10 with
    | none => .bad
    | some pos => .ok ((data.take pos).drop pfx.length) (data.drop (pos + 1))
  else .noPrefix

theorem readKV_ok_length {data pfx v rest : List Nat} (hp : pfx ≠ [])
    (h : readKV data pfx = .ok v rest) : rest.length < data.length := by
  unfold readKV at h
  by_cases hpre : pfx.isPrefixOf data
  · rw [if_pos hpre] at h
    cases hidx : indexByte data 10 with
    | none => rw [hidx] at h; exact absurd h (by simp)
    | some pos =>
      rw [hidx] at h
      have hrest : rest = data.drop (pos + 1) := by
        cases h; rfl
      have hlen : pfx.length ≤ data.length :=
        (List.isPrefixOf_iff_prefix.mp hpre).length_le
      have hpos : 0 < pfx.length := List.length_pos.mpr hp
      subst hrest
      simp only [List.length_drop]
      omega
  · rw [if_neg hpre] at h
    exact absurd h (by simp)

/-- The `parent` loop of `Commit.Parse` (commit.go:44-52). -/
def commitParents (data : List Nat) : POut (List (List Nat) × List Nat) :=
  match h : readKV data [112, 97, 114, 101, 110, 116, 32] with
  | .noPrefix => .ok ([], data)
  | .bad => .err
  | .ok v rest =>
    match sha1FromHex v with
    | none => .panic
    | some pid =>
      match commitParents rest with
      | .ok (ps, d) => .ok (pid :: ps, d)
      | .err => .err
      | .panic => .panic
termination_by data.length
decreasing_by
  exact readKV_ok_length (by simp) h

/-- A parsed commit payload. -/
structure CommitP : Type where
  tree : List Nat
  parents : List (List Nat)
  author : UserP
  committer : UserP
  msg : List Nat
  deriving DecidableEq, Repr

/-- Go `Commit.Parse` (commit.go:30-74).  `SHA1FromHex` panics on malformed
hex; `data[1:]` panics when nothing follows the committer line. -/
def commitParse (data : List Nat) : POut CommitP :=
  match readKV data [116, 114, 101, 101, 32] with
  | .noPrefix => .err
  | .bad => .err
  | .ok v d1 =>
    match sha1FromHex v with
    | none => .panic
    | some tid =>
      match commitParents d1 with
      | .err => .err
      | .panic => .panic
      | .ok (ps, d2) =>
        match readKV d2 [97, 117, 116, 104, 111, 114, 32] with
        | .noPrefix => .err
        | .bad => .err
        | .ok av d3 =>
          match userParse av with
          | .err => .err
          | .panic => .panic
          | .ok author =>
            match readKV d3 [99, 111, 109, 109, 105, 116, 116, 101, 114, 32] with
            | .noPrefix => .err
            | .bad => .err
            | .ok cv d4 =>
              match userParse cv with
              | .err => .err
              | .panic => .panic
              | .ok committer =>
                if d4.length < 1 then .panic
                else .ok ⟨tid, ps, author, committer, d4.drop 1⟩

/-! ### Pack index lookup (claims C1 and C5)

`PackIndexV2.Entry` (packindex.go:150-174): fanout-narrowed binary search.
Go's `sort.Search(n, f)` with `f(i) = entries[i].Compare(id) >= 0` is
embedded as `searchLoop`, threading the `found` flag that the closure sets
whenever a probe compares equal.  The slice `idx.Objects[lower:upper]`
becomes `drop`/`take`; the array reads `idx.Fanout[b]` and `idx.Offsets[x]`
become `getD`/`getElem?` (in-bounds under the claims' hypotheses). -/

/-- Go `sort.Search` specialized to the closure of `PackIndexV2.Entry`:
binary search for the least index in `[i, j)` satisfying `cmpf ≥ 0`,
recording in the flag whether any probe compared equal. -/
def searchLoop (cmpf : Nat → Int) (i j : Nat) (found : Bool) : Nat × Bool :=
  if i < j then
    let mid := (i + j) / 2
    let n := cmpf mid
    let found' := found || (n == 0)
    if n ≥ 0 then searchLoop cmpf i mid found' else searchLoop cmpf (mid + 1) j found'
  else (i, found)
termination_by j - i
decreasing_by
  · omega
  · omega

structure PackIndex : Type where
  fanout : List Nat
  objects : List (List Nat)
  offsets : List Nat
  largeOffsets : List Nat
  deriving Repr

/-- Go `PackIndexV2.Entry`: narrow by fanout, binary search, and on a hit
return `int64(idx.Offsets[x])` — the raw 4-byte offset, with no MSB test
and no consultation of `LargeOffsets`. -/
def PackIndex.Entry (idx : PackIndex) (id : List Nat) : Option Nat :=
  let b0 := id.headD 0
  let lower := if b0 ≠ 0 then idx.fanout.getD (b0 - 1) 0 else 0
  let upper := idx.fanout.getD b0 0
  let entries := (idx.objects.drop lower).take (upper - lower)
  let r := searchLoop (fun i => bytesCompare (entries.getD i []) id) 0 entries.length false
  if r.2 then idx.offsets[lower + r.1]? else none

/-- Linear scan: index of the first object equal to `id`. -/
def linearIndex : List (List Nat) → List Nat → Option Nat
  | [], _ => none
  | o :: rest, id => if o = id then some 0 else (linearIndex rest id).map (· + 1)

/-- Offset a linear scan of the parallel arrays would find. -/
def linearLookup (objs : List (List Nat)) (offs : List Nat) (id : List Nat) : Option Nat :=
  (linearIndex objs id).bind fun k => offs[k]?

/-! Order lemmas for `bytesCompare`. -/

theorem bytesCompare_swap : ∀ a b : List Nat, bytesCompare b a = -(bytesCompare a b)
  | [], [] => rfl
  | [], _ :: _ => rfl
  | _ :: _, [] => rfl
  | x :: xs, y :: ys => by
    by_cases hxy : x < y
    · have hyx : ¬ y < x := by omega
      simp [bytesCompare, hxy, hyx]
    · by_cases hyx : y < x
      · simp [bytesCompare, hxy, hyx]
      · simp [bytesCompare, hxy, hyx, bytesCompare_swap xs ys]

theorem bytesCompare_lt_trans :
    ∀ {a b c : List Nat}, bytesCompare a b < 0 → bytesCompare b c < 0 → bytesCompare a c < 0
  | [], [], _, h1, _ => by simp [bytesCompare] at h1
  | [], _ :: _, [], _, h2 => by simp [bytesCompare] at h2
  | [], _ :: _, _ :: _, _, _ => by simp [bytesCompare]
  | _ :: _, [], _, h1, _ => by simp [bytesCompare] at h1
  | _ :: _, _ :: _, [], _, h2 => by simp [bytesCompare] at h2
  | x :: xs, y :: ys, z :: zs, h1, h2 => by
    simp only [bytesCompare] at h1 h2 ⊢
    by_cases hxy : x < y
    · have hyz : y ≤ z := by
        by_contra hc
        have hzy : z < y := by omega
        have : ¬ y < z := by omega
        simp [if_neg this, if_pos hzy] at h2
      have hxz : x < z := by omega
      simp [hxz]
    · by_cases hyx : y < x
      · simp [if_neg hxy, if_pos hyx] at h1
      · have hx : x = y := by omega
        subst hx
        by_cases hxz : x < z
        · simp [hxz]
        · by_cases hzx : z < x
          · simp [if_neg hxz, if_pos hzx] at h2
          · simp only [if_neg hxy, if_neg hyx] at h1
            simp only [if_neg hxz, if_neg hzx] at h2 ⊢
            exact bytesCompare_lt_trans h1 h2

/-! Characterization of `searchLoop` (Go `sort.Search` plus the `found`
flag), by induction on the interval width. -/

theorem searchLoop_all_neg (cmpf : Nat → Int) :
    ∀ (m i j : Nat) (fd : Bool), j - i ≤ m → i ≤ j →
      (∀ l, i ≤ l → l < j → cmpf l < 0) → searchLoop cmpf i j fd = (j, fd) := by
  intro m
  induction m with
  | zero =>
    intro i j fd hm hij _
    have hji : i = j := by omega
    subst hji
    rw [searchLoop.eq_def]
    simp
  | succ m ih =>
    intro i j fd hm hij hneg
    rw [searchLoop.eq_def]
    by_cases hij2 : i < j
    · have hmid1 : i ≤ (i + j) / 2 := by omega
      have hmid2 : (i + j) / 2 < j := by omega
      have hcmp := hneg _ hmid1 hmid2
      have hne : (cmpf ((i + j) / 2) == 0) = false := by
        simp only [beq_eq_false_iff_ne, ne_eq]
        omega
      have hnotge : ¬ (cmpf ((i + j) / 2) ≥ 0) := by omega
      simp only [if_pos hij2, hne, Bool.or_false, if_neg hnotge]
      exact ih ((i + j) / 2 + 1) j fd (by omega) (by omega)
        (fun l hl1 hl2 => hneg l (by omega) hl2)
    · have hji : i = j := by omega
      subst hji
      simp

theorem searchLoop_found (cmpf : Nat → Int) :
    ∀ (m i j : Nat) (fd : Bool) (kk : Nat), j - i ≤ m → i ≤ kk → kk < j →
      (∀ l, l < kk → cmpf l < 0) → cmpf kk = 0 →
      (∀ l, kk < l → l < j → 0 < cmpf l) →
      searchLoop cmpf i j fd = (kk, true) := by
  intro m
  induction m with
  | zero =>
    intro i j fd kk hm h1 h2 _ _ _
    omega
  | succ m ih =>
    intro i j fd kk hm h1 h2 hbelow hat habove
    have hij : i < j := by omega
    rw [searchLoop.eq_def]
    rcases Nat.lt_trichotomy ((i + j) / 2) kk with hmid | hmid | hmid
    · have hcmp := hbelow _ hmid
      have hne : (cmpf ((i + j) / 2) == 0) = false := by
        simp only [beq_eq_false_iff_ne, ne_eq]
        omega
      have hnotge : ¬ (cmpf ((i + j) / 2) ≥ 0) := by omega
      simp only [if_pos hij, hne, Bool.or_false, if_neg hnotge]
      exact ih ((i + j) / 2 + 1) j fd kk (by omega) (by omega) h2 hbelow hat habove
    · simp only [if_pos hij, hmid, hat]
      norm_num
      exact searchLoop_all_neg cmpf kk i kk true (by omega) (by omega)
        (fun l hl1 hl2 => hbelow l hl2)
    · have hcmp := habove _ hmid (by omega)
      have hne : (cmpf ((i + j) / 2) == 0) = false := by
        simp only [beq_eq_false_iff_ne, ne_eq]
        omega
      have hge : cmpf ((i + j) / 2) ≥ 0 := by omega
      simp only [if_pos hij, hne, Bool.or_false, if_pos hge]
      exact ih i ((i + j) / 2) fd kk (by omega) h1 hmid hbelow hat
        (fun l hl1 hl2 => habove l hl1 (by omega))

theorem searchLoop_not_found (cmpf : Nat → Int) :
    ∀ (m i j : Nat) (fd : Bool), j - i ≤ m →
      (∀ l, i ≤ l → l < j → cmpf l ≠ 0) → (searchLoop cmpf i j fd).2 = fd := by
  intro m
  induction m with
  | zero =>
    intro i j fd hm _
    have : ¬ i < j := by omega
    rw [searchLoop.eq_def]
    simp [this]
  | succ m ih =>
    intro i j fd hm hne
    rw [searchLoop.eq_def]
    by_cases hij : i < j
    · have hmid1 : i ≤ (i + j) / 2 := by omega
      have hmid2 : (i + j) / 2 < j := by omega
      have h0 : (cmpf ((i + j) / 2) == 0) = false := by
        simp only [beq_eq_false_iff_ne, ne_eq]
        exact hne _ hmid1 hmid2
      simp only [if_pos hij, h0, Bool.or_false]
      by_cases hge : cmpf ((i + j) / 2) ≥ 0
      · rw [if_pos hge]
        exact ih i ((i + j) / 2) fd (by omega) (fun l hl1 hl2 => hne l hl1 (by omega))
      · rw [if_neg hge]
        exact ih ((i + j) / 2 + 1) j fd (by omega) (fun l hl1 hl2 => hne l (by omega) hl2)
    · simp [hij]

/-- In a list sorted for a relation under which the predicate is downward
closed, the elements satisfying the predicate form a prefix: position `j`
satisfies the predicate exactly when `j` is below the count. -/
theorem countP_prefix_iff (p : List Nat → Bool)
    (hanti : ∀ a b : List Nat, bytesCompare a b ≤ 0 → p b = true → p a = true) :
    ∀ l : List (List Nat), l.Pairwise (fun a b => bytesCompare a b ≤ 0) →
      ∀ j, (j < l.countP p ↔ j < l.length ∧ p (l.getD j []) = true) := by
  intro l
  induction l with
  | nil => intro _ j; simp
  | cons x xs ih =>
    intro hpw j
    obtain ⟨hx, hxs⟩ := List.pairwise_cons.mp hpw
    by_cases hp : p x = true
    · rw [List.countP_cons_of_pos p xs hp]
      cases j with
      | zero => simp [hp]
      | succ j =>
        simp only [List.length_cons, List.getD_cons_succ, Nat.add_lt_add_iff_right]
        exact ih hxs j
    · have hxs0 : xs.countP p = 0 := by
        rw [List.countP_eq_zero]
        intro a ha hpa
        exact hp (hanti x a (hx a ha) hpa)
      rw [List.countP_cons_of_neg p xs (by simp [hp]), hxs0]
      simp only [Nat.not_lt_zero, false_iff, not_and]
      intro hlen
      cases j with
      | zero => simpa using hp
      | succ j =>
        simp only [List.getD_cons_succ]
        have hj : j < xs.length := by simpa using hlen
        have hmem : xs.getD j [] ∈ xs := by
          rw [List.getD_eq_getElem xs [] hj]
          exact List.getElem_mem hj
        intro hpj
        exact (List.countP_eq_zero.mp hxs0) _ hmem hpj

/-- A linear scan finds the first matching index. -/
theorem linearIndex_eq_some :
    ∀ (objs : List (List Nat)) (id : List Nat) (k : Nat), k < objs.length →
      objs.getD k [] = id → (∀ l, l < k → objs.getD l [] ≠ id) →
      linearIndex objs id = some k := by
  intro objs
  induction objs with
  | nil => intro id k hk; simp at hk
  | cons o rest ih =>
    intro id k hk hget hfirst
    cases k with
    | zero =>
      simp only [List.getD_cons_zero] at hget
      simp [linearIndex, hget]
    | succ k =>
      have ho : o ≠ id := by
        have := hfirst 0 (Nat.succ_pos k)
        simpa using this
      simp only [linearIndex, if_neg ho]
      rw [ih id k (by simpa using hk) (by simpa using hget)
        (fun l hl => by simpa using hfirst (l + 1) (by omega))]
      rfl

theorem linearIndex_eq_none {objs : List (List Nat)} {id : List Nat} (h : id ∉ objs) :
    linearIndex objs id = none := by
  induction objs with
  | nil => rfl
  | cons o rest ih =>
    have ho : o ≠ id := fun he => h (by simp [he])
    have hrest : id ∉ rest := fun hm => h (by simp [hm])
    simp [linearIndex, ho, ih hrest]

/-- C5: for a pack index whose hash array is strictly ascending, whose
fanout is consistent (`fanout[b]` = number of objects with first byte
`≤ b`) and whose offset array parallels the hashes, `PackIndexV2.Entry` —
which binary-searches only the fanout slice `[lo, hi)` — returns for every
hash exactly what a linear scan of the full arrays finds: the stored
offset at the hash's position when present, `NotFound` (`none`) when
absent. -/
theorem packIndexEntry_eq_linearLookup (idx : PackIndex) (id : List Nat)
    (Hsort : idx.objects.Pairwise (fun a b => bytesCompare a b < 0))
    (Hfan : ∀ b, b < 256 →
      idx.fanout.getD b 0 = idx.objects.countP (fun o => decide (o.headD 0 ≤ b)))
    (Hoff : idx.offsets.length = idx.objects.length)
    (Hid : id.headD 0 < 256) :
    PackIndex.Entry idx id = linearLookup idx.objects idx.offsets id := by
  classical
  have hsortLe : idx.objects.Pairwise (fun a b => bytesCompare a b ≤ 0) :=
    Hsort.imp (fun h => le_of_lt h)
  have hcnt : ∀ c j, j < idx.objects.countP (fun o => decide (o.headD 0 ≤ c)) ↔
      (j < idx.objects.length ∧ (idx.objects.getD j []).headD 0 ≤ c) := by
    intro c j
    have h := countP_prefix_iff (fun o => decide (o.headD 0 ≤ c))
      (fun a b hab hpb => by
        simp only [decide_eq_true_eq] at hpb ⊢
        exact le_trans (headD_le_of_bytesCompare_le hab) hpb)
      idx.objects hsortLe j
    simpa using h
  have hpw : ∀ i j, i < idx.objects.length → j < idx.objects.length → i < j →
      bytesCompare (idx.objects.getD i []) (idx.objects.getD j []) < 0 := by
    intro i j hi hj hij
    have h := List.pairwise_iff_getElem.mp Hsort i j hi hj hij
    rwa [← List.getD_eq_getElem idx.objects [] hi,
      ← List.getD_eq_getElem idx.objects [] hj] at h
  set b0 := id.headD 0 with hb0
  set lower := (if b0 ≠ 0 then idx.fanout.getD (b0 - 1) 0 else 0) with hlower
  set upper := idx.fanout.getD b0 0 with hupper
  set entries := (idx.objects.drop lower).take (upper - lower) with hentries
  set cmpf := (fun i => bytesCompare (entries.getD i []) id) with hcmpf
  have hEntry : PackIndex.Entry idx id =
      (if (searchLoop cmpf 0 entries.length false).2
       then idx.offsets[lower + (searchLoop cmpf 0 entries.length false).1]? else none) := rfl
  have hentget : ∀ i, i < upper - lower →
      entries.getD i [] = idx.objects.getD (lower + i) [] := by
    intro i hi
    rw [hentries, List.getD_eq_getElem?_getD, List.getD_eq_getElem?_getD,
      List.getElem?_take, if_pos hi, List.getElem?_drop]
  by_cases hmem : id ∈ idx.objects
  · -- present: both sides yield the offset at the hash's unique position
    obtain ⟨k, hk, hgetk⟩ := List.getElem_of_mem hmem
    have hgetDk : idx.objects.getD k [] = id := by
      rw [List.getD_eq_getElem idx.objects [] hk]
      exact hgetk
    have hfirst : ∀ l, l < k → idx.objects.getD l [] ≠ id := by
      intro l hl he
      have hlt := hpw l k (by omega) hk hl
      rw [he, hgetDk, bytesCompare_self] at hlt
      omega
    have hbyte : (idx.objects.getD k []).headD 0 = b0 := by rw [hgetDk]
    have hupperval : upper = idx.objects.countP (fun o => decide (o.headD 0 ≤ b0)) := by
      rw [hupper]
      exact Hfan b0 Hid
    have hkupper : k < upper := by
      rw [hupperval]
      exact (hcnt b0 k).mpr ⟨hk, by rw [hbyte]⟩
    have hklower : lower ≤ k := by
      rw [hlower]
      by_cases hb0z : b0 ≠ 0
      · rw [if_pos hb0z, Hfan (b0 - 1) (by omega)]
        by_contra hlt
        push_neg at hlt
        have h2 := ((hcnt (b0 - 1) k).mp hlt).2
        rw [hbyte] at h2
        omega
      · rw [if_neg hb0z]
        omega
    have hupperle : upper ≤ idx.objects.length := by
      rw [hupperval]
      exact List.countP_le_length _
    have hentlen : entries.length = upper - lower := by
      rw [hentries]
      simp only [List.length_take, List.length_drop]
      omega
    have hkkl : k - lower < entries.length := by omega
    have hcmp_at : cmpf (k - lower) = 0 := by
      show bytesCompare (entries.getD (k - lower) []) id = 0
      rw [hentget (k - lower) (by omega), show lower + (k - lower) = k by omega, hgetDk,
        bytesCompare_self]
    have hcmp_below : ∀ l, l < k - lower → cmpf l < 0 := by
      intro l hl
      show bytesCompare (entries.getD l []) id < 0
      rw [hentget l (by omega)]
      have hlt := hpw (lower + l) k (by omega) hk (by omega)
      rwa [hgetDk] at hlt
    have hcmp_above : ∀ l, k - lower < l → l < entries.length → 0 < cmpf l := by
      intro l h1 h2
      show 0 < bytesCompare (entries.getD l []) id
      have hln : lower + l < idx.objects.length := by omega
      rw [hentget l (by omega)]
      have hlt := hpw k (lower + l) hk hln (by omega)
      rw [hgetDk] at hlt
      rw [bytesCompare_swap id (idx.objects.getD (lower + l) [])]
      omega
    have hsearch : searchLoop cmpf 0 entries.length false = (k - lower, true) :=
      searchLoop_found cmpf entries.length 0 entries.length false (k - lower) (by omega)
        (Nat.zero_le _) hkkl hcmp_below hcmp_at hcmp_above
    rw [hEntry, hsearch]
    simp only [if_pos]
    rw [show lower + (k - lower) = k by omega, linearLookup,
      linearIndex_eq_some idx.objects id k hk hgetDk hfirst]
    rfl
  · -- absent: the found flag stays false and the scan returns none
    have hnotzero : ∀ l, 0 ≤ l → l < entries.length → cmpf l ≠ 0 := by
      intro l _ hl he
      have heq : entries.getD l [] = id := bytesCompare_eq_zero he
      have hsub : List.Sublist entries idx.objects := by
        rw [hentries]
        exact (List.take_sublist _ _).trans (List.drop_sublist _ _)
      have hmeml : entries.getD l [] ∈ entries := by
        rw [List.getD_eq_getElem entries [] hl]
        exact List.getElem_mem hl
      exact hmem (hsub.mem (heq ▸ hmeml))
    have hsearch := searchLoop_not_found cmpf entries.length 0 entries.length false
      (by omega) hnotzero
    rw [hEntry]
    simp only [hsearch, Bool.false_eq_true, if_false]
    rw [linearLookup, linearIndex_eq_none hmem]
    rfl

set_option maxRecDepth 8192 in
/-- C5 witness: a concrete one-object index with consistent fanout. -/
theorem packIndexEntry_eq_linearLookup_witness :
    PackIndex.Entry ⟨List.replicate 256 1, [List.replicate 20 0], [42], []⟩
        (List.replicate 20 0) =
      linearLookup [List.replicate 20 0] [42] (List.replicate 20 0) :=
  packIndexEntry_eq_linearLookup ⟨List.replicate 256 1, [List.replicate 20 0], [42], []⟩
    (List.replicate 20 0) (by decide) (by decide) (by decide) (by decide)

unseal searchLoop in
/-- C1: on a hit, `PackIndexV2.Entry` returns the raw stored 4-byte offset
even when its MSB is set: for an index holding one object whose stored
offset is `0x80000000` and whose 64-bit large-offset table holds `12345`,
lookup returns `0x80000000 = 2147483648` — not
`large_offsets[raw & 0x7FFFFFFF] = 12345` as the claim requires. -/
theorem packIndexEntry_ignores_large_offsets :
    PackIndex.Entry
        ⟨List.replicate 256 1, [List.replicate 20 0], [2147483648], [12345]⟩
        (List.replicate 20 0) = some 2147483648 ∧
      [12345].getD (2147483648 &&& 2147483647) 0 = 12345 ∧
      (2147483648 : Nat) ≠ 12345 := by
  refine ⟨by decide, by decide, by decide⟩

unseal treeParseAux commitParents in
/-- C4: object-payload parsing is not total.  Exactly the malformed inputs
named by the claim drive the parsers into an out-of-bounds slice access
(a Go runtime panic) instead of a `MalformedObject`-style error return:
a tree row whose 20-byte hash field is truncated (payload
`"100644 a\x00"` followed by only 3 bytes), a user line whose `'<'` is the
first byte (`"<>"`), a user line whose `'>'` is the last byte (`"a <b>"`),
and a commit whose message and blank line are missing after the committer
line. -/
theorem object_parsing_panics_on_short_inputs :
    treeParse [49, 48, 48, 54, 52, 52, 32, 97, 0, 1, 2, 3] = .panic ∧
      userParse [60, 62] = .panic ∧
      userParse [97, 32, 60, 98, 62] = .panic ∧
      commitParse ([116, 114, 101, 101, 32] ++ List.replicate 40 97 ++ [10]
        ++ [97, 117, 116, 104, 111, 114, 32]
        ++ [97, 32, 60, 98, 62, 32, 48, 32, 43, 48, 48, 48, 48, 10]
        ++ [99, 111, 109, 109, 105, 116, 116, 101, 114, 32]
        ++ [97, 32, 60, 98, 62, 32, 48, 32, 43, 48, 48, 48, 48, 10]) = .panic := by
  refine ⟨?_, ?_, ?_, ?_⟩ <;> decide

/-! ### Pack index loading (claim C6)

`PackIndexV2.Parse` (packindex.go:94-148) over a byte-list input.  The
reader is wrapped in a `TeeReader` feeding a running SHA-1; every byte
read before `hasher.Sum(nil)` is hashed, and `Sum` is called after the
pack-file hash but before the self-hash is read.  SHA-1 itself (Go's
`crypto/sha1`) is abstracted as a function parameter `sha`.  The
sequential reads are split into `parsePre` (header through pack-file
hash, returning the parsed fields, the exact bytes consumed, and the
remaining input) and the trailing self-hash comparison. -/

/-- Go `io.ReadFull`-style exact read: the first `n` bytes and the rest. -/
def readN (n : Nat) (s : List Nat) : Option (List Nat × List Nat) :=
  if n ≤ s.length then some (s.take n, s.drop n) else none

/-- Big-endian word value of a byte list (Go `binary.BigEndian`). -/
def beWord (bs : List Nat) : Nat :=
  bs.foldl (fun a b => a * 256 + b) 0

/-- Split into big-endian `uint32` values, 4 bytes each. -/
def u32s : List Nat → List Nat
  | a :: b :: c :: d :: rest => (((a * 256 + b) * 256 + c) * 256 + d) :: u32s rest
  | _ => []

/-- Split into big-endian `uint64` values, 8 bytes each. -/
def u64s : List Nat → List Nat
  | a :: b :: c :: d :: e :: f :: g :: h :: rest =>
    (((((((a * 256 + b) * 256 + c) * 256 + d) * 256 + e) * 256 + f) * 256 + g) * 256 + h)
      :: u64s rest
  | _ => []

/-- Split into 20-byte hashes. -/
def chunks20 : List Nat → List (List Nat)
  | [] => []
  | x :: rest => (x :: rest.take 19) :: chunks20 (rest.drop 19)
termination_by l => l.length
decreasing_by
  simp only [List.length_cons, List.length_drop]
  omega

/-- Fields of a pack index v2 read before the trailing self-hash. -/
structure PreParsed : Type where
  fanout : List Nat
  objects : List (List Nat)
  crcs : List Nat
  offsets : List Nat
  largeOffsets : List Nat
  packFileHash : List Nat
  deriving DecidableEq, Repr

/-- `PackIndexV2.Parse` up to (and including) the pack-file hash: returns
the parsed fields, the bytes consumed so far (the `TeeReader` feed at the
moment `hasher.Sum(nil)` runs), and the remaining input. -/
def parsePre (input : List Nat) : Except GitErr (PreParsed × List Nat × List Nat) :=
  match readN 1032 input with
  | none => .error .ioError
  | some (hdr, r1) =>
    if hdr.take 4 ≠ [255, 116, 79, 99] ∨ beWord ((hdr.drop 4).take 4) ≠ 2 then
      .error .unknownFormat
    else
      let fanout := u32s (hdr.drop 8)
      let total := fanout.getD 255 0
      match readN (20 * total) r1 with
      | none => .error .ioError
      | some (objBytes, r2) =>
        match readN (4 * total) r2 with
        | none => .error .ioError
        | some (crcBytes, r3) =>
          match readN (4 * total) r3 with
          | none => .error .ioError
          | some (offBytes, r4) =>
            let offsets := u32s offBytes
            let largeCount := offsets.countP (fun o => decide ((o >>> 31) = 1))
            match readN (8 * largeCount) r4 with
            | none => .error .ioError
            | some (largeBytes, r5) =>
              match readN 20 r5 with
              | none => .error .ioError
              | some (packHash, r6) =>
                .ok (⟨fanout, chunks20 objBytes, u32s crcBytes, offsets,
                      u64s largeBytes, packHash⟩,
                  hdr ++ objBytes ++ crcBytes ++ offBytes ++ largeBytes ++ packHash, r6)

/-- Go `PackIndexV2.Parse`: `parsePre`, then read the 20-byte self-hash
and compare it against the running digest over the consumed bytes
(`ErrChecksum` on mismatch). -/
def parseIndex (sha : List Nat → List Nat) (input : List Nat) :
    Except GitErr (PreParsed × List Nat × List Nat) :=
  match parsePre input with
  | .error e => .error e
  | .ok (p, consumed, rest) =>
    match readN 20 rest with
    | none => .error .ioError
    | some (selfHash, rest2) =>
      if sha consumed ≠ selfHash then .error .checksum
      else .ok (p, selfHash, rest2)

theorem readN_append {n : Nat} {s a b : List Nat} (h : readN n s = some (a, b)) :
    s = a ++ b := by
  unfold readN at h
  by_cases hn : n ≤ s.length
  · rw [if_pos hn] at h
    cases h
    exact (List.take_append_drop n s).symm
  · rw [if_neg hn] at h
    exact absurd h (by simp)

/-- A successful `parsePre` consumed exactly a prefix of the input: the
bytes it feeds to the running hash are everything before the rest. -/
theorem parsePre_ok_split {input : List Nat} {p : PreParsed} {consumed rest : List Nat}
    (h : parsePre input = .ok (p, consumed, rest)) : input = consumed ++ rest := by
  unfold parsePre at h
  cases h1 : readN 1032 input with
  | none => rw [h1] at h; exact absurd h (by simp)
  | some pr1 =>
    obtain ⟨hdr, r1⟩ := pr1
    rw [h1] at h
    dsimp only at h
    by_cases hmv : hdr.take 4 ≠ [255, 116, 79, 99] ∨ beWord ((hdr.drop 4).take 4) ≠ 2
    · rw [if_pos hmv] at h
      exact absurd h (by simp)
    · rw [if_neg hmv] at h
      cases h2 : readN (20 * (u32s (hdr.drop 8)).getD 255 0) r1 with
      | none => rw [h2] at h; exact absurd h (by simp)
      | some pr2 =>
        obtain ⟨objBytes, r2⟩ := pr2
        rw [h2] at h
        dsimp only at h
        cases h3 : readN (4 * (u32s (hdr.drop 8)).getD 255 0) r2 with
        | none => rw [h3] at h; exact absurd h (by simp)
        | some pr3 =>
          obtain ⟨crcBytes, r3⟩ := pr3
          rw [h3] at h
          dsimp only at h
          cases h4 : readN (4 * (u32s (hdr.drop 8)).getD 255 0) r3 with
          | none => rw [h4] at h; exact absurd h (by simp)
          | some pr4 =>
            obtain ⟨offBytes, r4⟩ := pr4
            rw [h4] at h
            dsimp only at h
            cases h5 : readN (8 * (u32s offBytes).countP (fun o => decide ((o >>> 31) = 1))) r4 with
            | none => rw [h5] at h; exact absurd h (by simp)
            | some pr5 =>
              obtain ⟨largeBytes, r5⟩ := pr5
              rw [h5] at h
              dsimp only at h
              cases h6 : readN 20 r5 with
              | none => rw [h6] at h; exact absurd h (by simp)
              | some pr6 =>
                obtain ⟨packHash, r6⟩ := pr6
                rw [h6] at h
                dsimp only at h
                obtain ⟨hp, hc, hr⟩ : p = _ ∧ consumed = hdr ++ objBytes ++ crcBytes
                    ++ offBytes ++ largeBytes ++ packHash ∧ rest = r6 := by
                  have := h
                  injection this with h'
                  obtain ⟨ha, hb⟩ := Prod.mk.injEq .. ▸ h'
                  exact ⟨ha.symm, congrArg Prod.fst hb |>.symm, congrArg Prod.snd hb |>.symm⟩
                subst hc hr
                rw [readN_append h1, readN_append h2, readN_append h3, readN_append h4,
                  readN_append h5, readN_append h6]
                simp [List.append_assoc]

/-- C6: loading a pack index hashes exactly the bytes preceding the
trailing 20-byte self-hash — the header, fanout, hashes, CRCs, offsets,
large offsets and pack-file hash, i.e. `consumed` with
`input = consumed ++ rest` — and fails with `ErrChecksum` exactly when the
digest of those bytes differs from the stored self-hash; a wrong magic or
a version other than 2 fails with `ErrUnknownFormat` no matter what
follows the header, before any array is read. -/
theorem parseIndex_checksum_spec (sha : List Nat → List Nat) (input : List Nat) :
    (∀ p consumed rest, parsePre input = .ok (p, consumed, rest) →
        input = consumed ++ rest ∧
        ∀ selfHash rest2, readN 20 rest = some (selfHash, rest2) →
          (parseIndex sha input = .error .checksum ↔ sha consumed ≠ selfHash)) ∧
      ∀ hdr r1, readN 1032 input = some (hdr, r1) →
        (hdr.take 4 ≠ [255, 116, 79, 99] ∨ beWord ((hdr.drop 4).take 4) ≠ 2) →
        parseIndex sha input = .error .unknownFormat := by
  constructor
  · intro p consumed rest h
    refine ⟨parsePre_ok_split h, ?_⟩
    intro selfHash rest2 hr
    unfold parseIndex
    rw [h]
    dsimp only
    rw [hr]
    dsimp only
    by_cases hs : sha consumed ≠ selfHash
    · rw [if_pos hs]
      simpa using hs
    · rw [if_neg hs]
      simp [hs]
  · intro hdr r1 h1 hbad
    unfold parseIndex parsePre
    rw [h1]
    dsimp only
    rw [if_pos hbad]

set_option maxRecDepth 16384 in
unseal chunks20 in
/-- C6 witness: an empty but well-formed index (all fanout zero) whose
self-hash equals the abstract digest, plus a bad-magic rejection. -/
theorem parseIndex_checksum_spec_witness :
    ([255, 116, 79, 99, 0, 0, 0, 2] ++ List.replicate 1044 0 ++ List.replicate 20 0 :
        List Nat) =
      ([255, 116, 79, 99, 0, 0, 0, 2] ++ List.replicate 1044 0) ++ List.replicate 20 0 ∧
      (parseIndex (fun _ => List.replicate 20 0)
          ([255, 116, 79, 99, 0, 0, 0, 2] ++ List.replicate 1044 0 ++ List.replicate 20 0) =
            .error .checksum ↔
        (fun _ : List Nat => List.replicate 20 0)
            ([255, 116, 79, 99, 0, 0, 0, 2] ++ List.replicate 1044 0) ≠
          List.replicate 20 0) := by
  have h := (parseIndex_checksum_spec (fun _ => List.replicate 20 0)
      ([255, 116, 79, 99, 0, 0, 0, 2] ++ List.replicate 1044 0 ++ List.replicate 20 0)).1
    ⟨List.replicate 256 0, [], [], [], [], List.replicate 20 0⟩
    ([255, 116, 79, 99, 0, 0, 0, 2] ++ List.replicate 1044 0) (List.replicate 20 0)
    (by rfl)
  exact ⟨h.1, h.2 (List.replicate 20 0) [] (by rfl)⟩

/-! ### Tree serialization (claim C7)

The serialization half of `Tree.write` (tree.go:282-292) after the
recursive child writes: sort by canonical name, skip materialized empty
subtrees, emit `"<mode> <name>\0" ++ hash`.  Go's `sort.Sort(ByName(...))`
is an unstable comparison sort whose postcondition is a permutation that
is non-decreasing w.r.t. `Less` (tree.go:380:
`canonicalName i < canonicalName j` on strings, i.e. bytewise
lexicographic); it is modelled by `List.mergeSort` under the
corresponding `≤`. -/

/-- The materialized child object of a tree entry, as far as the skip
test `entry.Object.obj != nil && isTree && len(Entries) == 0` observes
it. -/
inductive ChildObj : Type
  | unresolved
  | tree (numEntries : Nat)
  | nonTree
  deriving DecidableEq, Repr

structure TreeEntryW : Type where
  mode : Nat
  name : List Nat
  hash : List Nat
  child : ChildObj
  deriving DecidableEq, Repr

/-- Go `TreeEntry.canonicalName` (tree.go:325-330): a directory
(`Mode & ModeTree != 0`, `ModeTree = 0o40000`) sorts as `name + "/"`. -/
def canonicalName (e : TreeEntryW) : List Nat :=
  if e.mode &&& 16384 ≠ 0 then e.name ++ [47] else e.name

/-- The sort order established by `sort.Sort(ByName(...))`. -/
def canonLeB (a b : TreeEntryW) : Bool :=
  decide (bytesCompare (canonicalName a) (canonicalName b) ≤ 0)

/-- Go `TreeEntryMode.String` (tree.go:353-361): octal digits, most
significant first, none emitted for a zero mode — hence no leading
zeros. -/
def modeString (m : Nat) : List Nat :=
  if m = 0 then [] else modeString (m / 8) ++ [48 + m % 8]
termination_by m
decreasing_by
  omega

/-- The skip test of the write loop (tree.go:285-288). -/
def skipEntry (e : TreeEntryW) : Bool :=
  match e.child with
  | .tree 0 => true
  | _ => false

/-- The emit loop of `Tree.write` (tree.go:283-292), accumulating the
serialization buffer. -/
def treeWriteLoop : List TreeEntryW → List Nat → List Nat
  | [], b => b
  | e :: rest, b =>
    if skipEntry e then treeWriteLoop rest b
    else treeWriteLoop rest (b ++ (modeString e.mode ++ [32] ++ e.name ++ [0] ++ e.hash))

/-- The serialized bytes `Tree.write` hands to `writeObject`. -/
def treeWriteBytes (entries : List TreeEntryW) : List Nat :=
  treeWriteLoop (entries.mergeSort canonLeB) []

theorem bytesCompare_le_trans {a b c : List Nat} (h1 : bytesCompare a b ≤ 0)
    (h2 : bytesCompare b c ≤ 0) : bytesCompare a c ≤ 0 := by
  rcases lt_or_eq_of_le h1 with h1' | h1'
  · rcases lt_or_eq_of_le h2 with h2' | h2'
    · exact le_of_lt (bytesCompare_lt_trans h1' h2')
    · rw [← bytesCompare_eq_zero h2']
      exact h1
  · rw [bytesCompare_eq_zero h1']
    exact h2

theorem bytesCompare_le_total (a b : List Nat) :
    bytesCompare a b ≤ 0 ∨ bytesCompare b a ≤ 0 := by
  rcases le_or_lt (bytesCompare a b) 0 with h | h
  · exact Or.inl h
  · right
    rw [bytesCompare_swap]
    omega

theorem modeString_ne_nil {m : Nat} (h : m ≠ 0) : modeString m ≠ [] := by
  rw [modeString.eq_def, if_neg h]
  simp

theorem modeString_headD : ∀ m : Nat, m ≠ 0 → (modeString m).headD 0 ≠ 48 := by
  intro m
  induction m using Nat.strong_induction_on with
  | _ m ih =>
    intro hm
    rw [modeString.eq_def, if_neg hm]
    by_cases h8 : m / 8 = 0
    · rw [h8, show modeString 0 = [] from by rw [modeString.eq_def]; simp]
      simp only [List.nil_append, List.headD_cons]
      omega
    · have hhead := ih (m / 8) (by omega) h8
      have hne := modeString_ne_nil h8
      cases hms : modeString (m / 8) with
      | nil => exact absurd hms hne
      | cons x xs =>
        rw [hms] at hhead
        simpa using hhead

theorem treeWriteLoop_eq :
    ∀ (l : List TreeEntryW) (b : List Nat),
      treeWriteLoop l b = b ++ (l.filter (fun e => !skipEntry e)).flatMap
        (fun e => modeString e.mode ++ [32] ++ e.name ++ [0] ++ e.hash) := by
  intro l
  induction l with
  | nil => intro b; simp [treeWriteLoop]
  | cons e rest ih =>
    intro b
    by_cases hs : skipEntry e
    · rw [treeWriteLoop, if_pos hs, ih]
      simp [hs]
    · rw [treeWriteLoop, if_neg hs, ih]
      simp [hs]

/-- C7: the bytes written for a tree are exactly the entries sorted into
non-decreasing canonical-name order (directories sort with a trailing
`'/'`, other modes by bare name), with every entry whose materialized
child tree has zero entries omitted, each emitted as
`"<octal mode> <name>\0<hash>"`; the octal mode never has a leading
zero digit. -/
theorem treeWrite_canonical_order (entries : List TreeEntryW) :
    treeWriteBytes entries =
      ((entries.mergeSort canonLeB).filter (fun e => !skipEntry e)).flatMap
        (fun e => modeString e.mode ++ [32] ++ e.name ++ [0] ++ e.hash) ∧
      List.Pairwise (fun a b => bytesCompare (canonicalName a) (canonicalName b) ≤ 0)
        (entries.mergeSort canonLeB) ∧
      (entries.mergeSort canonLeB).Perm entries ∧
      ∀ m : Nat, m ≠ 0 → (modeString m).headD 0 ≠ 48 := by
  refine ⟨?_, ?_, ?_, modeString_headD⟩
  · rw [treeWriteBytes, treeWriteLoop_eq]
    simp
  · have hs := List.sorted_mergeSort
      (fun a b c (hab : canonLeB a b) (hbc : canonLeB b c) => by
        simp only [canonLeB, decide_eq_true_eq] at hab hbc ⊢
        exact bytesCompare_le_trans hab hbc)
      (fun a b => by
        simp only [canonLeB, Bool.or_eq_true, decide_eq_true_eq]
        exact bytesCompare_le_total (canonicalName a) (canonicalName b))
      entries
    refine hs.imp ?_
    intro a b h
    simpa [canonLeB] using h
  · exact List.mergeSort_perm entries canonLeB

/-- C7 witness: a directory, a file, and a materialized empty subtree. -/
theorem treeWrite_canonical_order_witness :
    treeWriteBytes
        [⟨33188, [98], List.replicate 20 1, .nonTree⟩,
         ⟨16384, [97], List.replicate 20 2, .tree 2⟩,
         ⟨16384, [99], List.replicate 20 3, .tree 0⟩] =
      (([⟨33188, [98], List.replicate 20 1, .nonTree⟩,
          ⟨16384, [97], List.replicate 20 2, .tree 2⟩,
          ⟨16384, [99], List.replicate 20 3, .tree 0⟩].mergeSort canonLeB).filter
          (fun e => !skipEntry e)).flatMap
        (fun e => modeString e.mode ++ [32] ++ e.name ++ [0] ++ e.hash) ∧
      (modeString 16384).headD 0 ≠ 48 := by
  have h := treeWrite_canonical_order
    [⟨33188, [98], List.replicate 20 1, .nonTree⟩,
     ⟨16384, [97], List.replicate 20 2, .tree 2⟩,
     ⟨16384, [99], List.replicate 20 3, .tree 0⟩]
  exact ⟨h.1, h.2.2.2 16384 (by decide)⟩

/-! ### Theorems for claims C2, C8, C9, C10 -/

/-- C9 (counterexample): `NewSHA1` accepts `"ab"`, a 2-character hex string,
returning the decoded byte zero-padded to 20 bytes — the claim that any
input that is not exactly 40 hex characters is rejected is false. -/
theorem newSHA1_accepts_short_hex :
    NewSHA1 [97, 98] = some (171 :: List.replicate 19 0) ∧ [97, 98].length = 2 := by
  constructor
  · rfl
  · rfl

/-- C9 (amended): constructing a hash from a hex string fails exactly when
the input has odd length or contains a non-hex character; every even-length
hex string succeeds regardless of its length (the decoded bytes are
truncated to, or zero-padded up to, 20 bytes by `copy`). -/
theorem newSHA1_ok_iff (s : List Nat) :
    (NewSHA1 s).isSome ↔ s.length % 2 = 0 ∧ ∀ c ∈ s, isHexChar c = true := by
  rw [← hexDecode_isSome_iff]
  simp [NewSHA1]

/-- C8: a `SparseObject` resolves through the store at most once.  The first
resolve on a fresh reference stores and returns exactly the store's
`(Object, error)` pair; any later resolve — run against an arbitrary second
store to witness that the store is not consulted again — returns the
identical cached state and pair.  The hypothesis mirrors that
`Repository.Object` never returns `(nil, nil)`. -/
theorem sparseObject_resolve_at_most_once {Obj Err : Type}
    (store : List Nat → Option Obj × Option Err) (id : List Nat)
    (h : store id ≠ (none, none)) :
    (SparseObj.Resolve store ⟨id, none, none⟩).2 = store id ∧
      ∀ store' : List Nat → Option Obj × Option Err,
        SparseObj.Resolve store' (SparseObj.Resolve store ⟨id, none, none⟩).1 =
          SparseObj.Resolve store ⟨id, none, none⟩ := by
  have hfirst : SparseObj.Resolve store ⟨id, none, none⟩ =
      ({ id := id, obj := (store id).1, err := (store id).2 }, store id) := by
    simp [SparseObj.Resolve]
  refine ⟨by rw [hfirst], ?_⟩
  intro store'
  rw [hfirst]
  have hne : ¬((store id).1.isNone && (store id).2.isNone) = true := by
    cases hs : store id with
    | mk o e =>
      cases o with
      | some _ => simp
      | none =>
        cases e with
        | some _ => simp
        | none => exact absurd hs h
  simp [SparseObj.Resolve, hne]

/-- C8 witness at a concrete store. -/
theorem sparseObject_resolve_at_most_once_witness :
    (SparseObj.Resolve (fun _ => ((some 0 : Option Nat), (none : Option GitErr)))
        ⟨[], none, none⟩).2 = (some 0, none) ∧
      SparseObj.Resolve (fun _ => ((none : Option Nat), some GitErr.notFound))
          (SparseObj.Resolve (fun _ => ((some 0 : Option Nat), (none : Option GitErr)))
            ⟨[], none, none⟩).1 =
        SparseObj.Resolve (fun _ => ((some 0 : Option Nat), (none : Option GitErr)))
          ⟨[], none, none⟩ := by
  have h := sparseObject_resolve_at_most_once
      (fun _ => ((some 0 : Option Nat), (none : Option GitErr))) [] (by simp)
  exact ⟨h.1, h.2 _⟩

/-- C2 (counterexample): when the pack store reports a checksum error, the
repository does not surface it; it silently retries the loose store and
returns the loose result. -/
theorem repositoryEntry_masks_checksum_error :
    repositoryEntry (fun _ => (.error GitErr.checksum : Except GitErr Nat))
        (fun _ => .ok 7) [] = .ok 7 ∧
      repositoryEntry (fun _ => (.error GitErr.checksum : Except GitErr Nat))
          (fun _ => .ok 7) [] ≠ .error GitErr.checksum := by
  exact ⟨rfl, by simp [repositoryEntry]⟩

/-- C2 (amended): the repository consults the pack store first and falls
back to the loose store on *every* pack-store error — not only `NotFound`;
no pack-store error is ever surfaced to the caller. -/
theorem repositoryEntry_fallback_on_any_error {E : Type}
    (pack loose : List Nat → Except GitErr E) (id : List Nat) :
    (∀ en, pack id = .ok en → repositoryEntry pack loose id = .ok en) ∧
      ∀ e, pack id = .error e → repositoryEntry pack loose id = loose id := by
  constructor
  · intro en hok
    simp [repositoryEntry, hok]
  · intro e herr
    simp [repositoryEntry, herr]

/-- C2 witness: both branches of the amended theorem at concrete stores. -/
theorem repositoryEntry_fallback_on_any_error_witness :
    repositoryEntry (fun _ => (.ok 5 : Except GitErr Nat)) (fun _ => .ok 3) [2] = .ok 5 ∧
      repositoryEntry (fun _ => (.error GitErr.ioError : Except GitErr Nat))
        (fun _ => .ok 3) [2] = .ok 3 := by
  constructor
  · exact (repositoryEntry_fallback_on_any_error (fun _ => .ok 5) (fun _ => .ok 3) [2]).1 5 rfl
  · exact (repositoryEntry_fallback_on_any_error (fun _ => .error GitErr.ioError)
      (fun _ => .ok 3) [2]).2 GitErr.ioError rfl

/-- C10: when the entry is found and its payload reads back but fails to
parse, `Pack.Object` returns the partially-initialized object with a `nil`
error (the parse failure is discarded), while `Repository.readObject`
returns the same object together with the parse error. -/
theorem packObject_swallows_parse_error {Obj : Type} (en : ObjEntry)
    (parse : String → List Nat → Obj × Option GitErr) (b : List Nat) (o : Obj)
    (e : GitErr) (hread : en.readAll = .ok b) (hparse : parse en.typ b = (o, some e)) :
    packObject (.ok en) parse = (some o, none) ∧
      repositoryReadObject (.ok en) parse = (some o, some e) := by
  constructor
  · simp [packObject, hread, hparse]
  · simp [repositoryReadObject, hread, hparse]

/-- C10 witness at a concrete entry and failing parser. -/
theorem packObject_swallows_parse_error_witness :
    packObject (.ok ⟨"blob", .ok [1]⟩ : Except GitErr ObjEntry)
        (fun _ _ => (5, some GitErr.unknownFormat)) = (some 5, none) ∧
      repositoryReadObject (.ok ⟨"blob", .ok [1]⟩ : Except GitErr ObjEntry)
        (fun _ _ => (5, some GitErr.unknownFormat)) = (some 5, some GitErr.unknownFormat) :=
  packObject_swallows_parse_error ⟨"blob", .ok [1]⟩
    (fun _ _ => (5, some GitErr.unknownFormat)) [1] 5 GitErr.unknownFormat rfl rfl

end GoGit
